import Mathlib

/-!
Shallow embedding of the OOXML tracked-change text-editing engine
(`docx_edit.py` over `utils/ooxml_helpers.py`): document tree model,
change-ID allocator, markup synthesizer, and the span-editor operations
`replace_text`, `insert_text_after`, `delete_text`, together with proofs
of the specification's claims about them.

Text is modelled as `List Char`.  A document state models the two
on-disk parts the engine touches: `word/document.xml` (the tree) and
`word/settings.xml` (optional).
-/

namespace DocxEdit

/-- Text content, modelled as a list of characters. -/
abbrev Str := List Char

/-- Leftmost-occurrence partition: `partitionStr s pat = some (b, a)`
when `s = b ++ pat ++ a` with `b` shortest; `none` when `pat` does not
occur in `s`.  Mirrors the search underlying Python's `in`,
`str.partition` and `str.replace`. -/
def partitionStr : Str → Str → Option (Str × Str)
  | s, pat =>
    if pat.isPrefixOf s then some ([], s.drop pat.length)
    else
      match s with
      | [] => none
      | c :: rest => (partitionStr rest pat).map (fun p => (c :: p.1, p.2))

/-- `pat` occurs in `s`, mirroring Python's `pat in s`. -/
def strContains (s pat : Str) : Bool :=
  (partitionStr s pat).isSome

/-- Python's `s.partition(pat)`: `(before, sep, after)` at the leftmost
occurrence, or `(s, "", "")` when absent. -/
def pyPartition (s pat : Str) : Str × Str × Str :=
  match partitionStr s pat with
  | some p => (p.1, pat, p.2)
  | none => (s, [], [])

/-- One step of Python's `s.replace(f, r)` with fuel: replaces
non-overlapping occurrences left to right. -/
def replaceAllAux : Nat → Str → Str → Str → Str
  | 0, s, _, _ => s
  | fuel + 1, s, f, r =>
    match partitionStr s f with
    | none => s
    | some p => p.1 ++ r ++ replaceAllAux fuel p.2 f r

/-- Python's `s.replace(f, r)` for non-empty `f`: every non-overlapping
occurrence, scanned left to right, is replaced. -/
def replaceAll (s f r : Str) : Str :=
  replaceAllAux (s.length + 1) s f r

/-- `text.startswith(" ")`. -/
def startsWithSpace : Str → Bool
  | [] => false
  | c :: _ => c = ' '

/-- `text.endswith(" ")`. -/
def endsWithSpace (s : Str) : Bool :=
  match s.getLast? with
  | some c => c = ' '
  | none => false

/-- Outcome of parsing a `w:id` attribute value with Python `int(...)`:
either a numeric value or a non-numeric string (ignored by the
allocator). -/
inductive IdVal where
  | numeric (n : Int)
  | nonNumeric
deriving DecidableEq, Repr

/-- A text-bearing leaf of a run: a live text node (`w:t`) or a
deleted-text node (`w:delText`); `preserve` models the presence of the
`xml:space="preserve"` attribute. -/
inductive TextLeaf where
  | t (text : Str) (preserve : Bool)
  | delText (text : Str) (preserve : Bool)
deriving DecidableEq, Repr

/-- Inline content of a paragraph: a run (`w:r`, with its `w:rPr`
bold/italic flags and its text leaves), a tracked-change wrapper
(`w:ins` when `isIns`, else `w:del`, with `w:id`/`w:author`/`w:date`
attributes and nested inline children), or some other element possibly
carrying a `w:id` attribute (bookmarks etc.). -/
inductive Inline where
  | run (bold italic : Bool) (leaves : List TextLeaf)
  | wrap (isIns : Bool) (id : IdVal) (author date : String) (children : List Inline)
  | other (id : Option IdVal)
deriving Repr

/-- A paragraph (`w:p`) is its ordered list of inline children. -/
abbrev Paragraph := List Inline

/-- The parsed `word/document.xml` tree: its paragraphs in document
order, plus the `w:id` attribute values appearing on elements outside
paragraph content (the allocator scans the whole tree). -/
structure Document where
  paras : List Paragraph
  extraIds : List IdVal
deriving Repr

/-- The `word/settings.xml` part: whether `w:trackRevisions` is
present. -/
structure Settings where
  trackRevisions : Bool
deriving DecidableEq, Repr

/-- The on-disk state the engine touches: the document part and the
optional settings part (`none` = file absent). -/
structure DocState where
  doc : Document
  settings : Option Settings
deriving Repr

/-- Text of one leaf as seen by `get_text_content` (only `w:t` leaves
contribute). -/
def leafWT : TextLeaf → Str
  | .t s _ => s
  | .delText _ _ => []

/-- `get_text_content` of a run: concatenation of its `w:t` leaves. -/
def runWT (leaves : List TextLeaf) : Str :=
  (leaves.map leafWT).flatten

mutual

/-- `get_text_content` of an inline element: concatenation of all
descendant `w:t` text, document order. -/
def inlineText : Inline → Str
  | .run _ _ leaves => runWT leaves
  | .wrap _ _ _ _ cs => inlineListText cs
  | .other _ => []

/-- `get_text_content` over a list of siblings. -/
def inlineListText : List Inline → Str
  | [] => []
  | x :: xs => inlineText x ++ inlineListText xs

end

/-- Paragraph text: `get_text_content(para)`. -/
def paraText (p : Paragraph) : Str :=
  inlineListText p

mutual

/-- All `w:id` attribute values on an inline element and its
descendants, document order. -/
def inlineIds : Inline → List IdVal
  | .run _ _ _ => []
  | .wrap _ idv _ _ cs => idv :: inlineListIds cs
  | .other idv => idv.toList

/-- All `w:id` attribute values over a list of siblings. -/
def inlineListIds : List Inline → List IdVal
  | [] => []
  | x :: xs => inlineIds x ++ inlineListIds xs

end

/-- The numeric values among a list of `w:id` attributes (non-numeric
ones are dropped, as `int(...)` raising `ValueError` is swallowed). -/
def numericIds (l : List IdVal) : List Int :=
  l.filterMap (fun v => match v with | .numeric n => some n | .nonNumeric => none)

/-- Every `w:id` attribute value in the whole tree. -/
def docIds (d : Document) : List IdVal :=
  d.extraIds ++ (d.paras.map inlineListIds).flatten

/-- The numeric `w:id` values in the whole tree. -/
def docNumIds (d : Document) : List Int :=
  numericIds (docIds d)

/-- `get_next_change_id`: scan every element for a `w:id` attribute,
take the running maximum starting from `0` of the values that parse as
integers, and return that maximum plus one. -/
def get_next_change_id (d : Document) : Int :=
  (docNumIds d).foldl max 0 + 1

/-- `create_text_element(text, preserve_space)`: a `w:t` leaf whose
`xml:space="preserve"` attribute is set when `preserve_space` is on and
the text starts or ends with a space. -/
def create_text_element (text : Str) (preserve_space : Bool) : TextLeaf :=
  .t text (preserve_space && (startsWithSpace text || endsWithSpace text))

/-- `create_run(text, bold, italic)`: a `w:r` with optional `w:rPr`
formatting and one `w:t` leaf (built with `preserve_space=True`). -/
def create_run (text : Str) (bold italic : Bool) : Inline :=
  .run bold italic [create_text_element text true]

/-- `create_tracked_insertion(text, author, change_id, bold, italic)`:
a `w:ins` wrapper stamped with the change id (stored as its decimal
string, which parses back to the same integer), author and timestamp,
containing one synthesized run. -/
def create_tracked_insertion (text : Str) (author : String) (change_id : Int)
    (date : String) (bold italic : Bool) : Inline :=
  .wrap true (.numeric change_id) author date [create_run text bold italic]

/-- `create_tracked_deletion(text, author, change_id)`: a `w:del`
wrapper stamped with id, author and timestamp, containing a bare run
with one `w:delText` leaf whose preserve attribute is set when the text
starts or ends with a space. -/
def create_tracked_deletion (text : Str) (author : String) (change_id : Int)
    (date : String) : Inline :=
  .wrap false (.numeric change_id) author date
    [.run false false [.delText text (startsWithSpace text || endsWithSpace text)]]

/-- `enable_track_changes`: read the settings part if present (else
start from minimal content) and ensure the `w:trackRevisions` flag is
present, then write the part back. -/
def enableTrackChanges : Option Settings → Settings
  | none => { trackRevisions := true }
  | some st => { st with trackRevisions := true }

/-- Replace `new_text` into the first `w:t` leaf of a run, as the
untracked branch of `replace_text` does (`for t in run.iter(w:t):
t.text = new_text; break`); the leaf's preserve attribute is left
untouched and later leaves are unchanged. -/
def setFirstTLeaf : List TextLeaf → Str → List TextLeaf
  | [], _ => []
  | .t _ p :: rest, s => .t s p :: rest
  | .delText txt p :: rest, s => .delText txt p :: setFirstTLeaf rest s

mutual

/-- The per-run body of `replace_text`'s paragraph loop, applied to one
inline element: a run whose `w:t` text contains `find` is, in tracked
mode, removed and replaced in place by `[before-run?, deletion,
insertion, after-run?]` (the deletion taking the current change id and
the insertion the next); in untracked mode its first `w:t` leaf is
overwritten with `run_text.replace(find, repl)`.  Runs nested inside
tracked wrappers are reached through the wrapper, as the `w:r`
descendant scan does.  Returns the replacement elements, the updated
change id and the number of replacements. -/
def replaceInline (find repl : Str) (tc : Bool) (author date : String) :
    Inline → Int → List Inline × Int × Nat
  | .run b i leaves, cid =>
    let rt := runWT leaves
    if strContains rt find then
      if tc then
        let delE := create_tracked_deletion find author cid date
        let insE := create_tracked_insertion repl author (cid + 1) date false false
        let pr := pyPartition rt find
        ((if pr.1 = [] then [] else [create_run pr.1 false false])
            ++ [delE, insE]
            ++ (if pr.2.2 = [] then [] else [create_run pr.2.2 false false]),
          cid + 2, 1)
      else
        ([.run b i (setFirstTLeaf leaves (replaceAll rt find repl))], cid, 1)
    else
      ([.run b i leaves], cid, 0)
  | .wrap isIns idv a2 d2 cs, cid =>
    let r := replaceInlines find repl tc author date cs cid
    ([.wrap isIns idv a2 d2 r.1], r.2.1, r.2.2)
  | .other idv, cid => ([.other idv], cid, 0)

/-- `replace_text`'s run loop over a sibling list, in document
(pre-)order, threading the change id and the replacement count. -/
def replaceInlines (find repl : Str) (tc : Bool) (author date : String) :
    List Inline → Int → List Inline × Int × Nat
  | [], cid => ([], cid, 0)
  | x :: xs, cid =>
    let r1 := replaceInline find repl tc author date x cid
    let r2 := replaceInlines find repl tc author date xs r1.2.1
    (r1.1 ++ r2.1, r2.2.1, r1.2.2 + r2.2.2)

end

/-- One iteration of `replace_text`'s paragraph loop: paragraphs whose
full text does not contain `find` are skipped. -/
def replacePara (find repl : Str) (tc : Bool) (author date : String)
    (p : Paragraph) (cid : Int) : Paragraph × Int × Nat :=
  if strContains (paraText p) find then
    replaceInlines find repl tc author date p cid
  else
    (p, cid, 0)

/-- `replace_text`'s whole paragraph loop, document order. -/
def replaceParas (find repl : Str) (tc : Bool) (author date : String) :
    List Paragraph → Int → List Paragraph × Int × Nat
  | [], cid => ([], cid, 0)
  | p :: ps, cid =>
    let r1 := replacePara find repl tc author date p cid
    let r2 := replaceParas find repl tc author date ps r1.2.1
    (r1.1 :: r2.1, r2.2.1, r1.2.2 + r2.2.2)

/-- `replace_text(folder, find, repl, track_changes, author)`: parse the
document part, allocate the starting change id (tracked mode only),
enable the track-changes setting (tracked mode only), run the paragraph
loop, save the document part, and return the replacement count with the
resulting on-disk state. -/
def replace_text (st : DocState) (find repl : Str) (tc : Bool)
    (author date : String) : Nat × DocState :=
  let root := st.doc
  let cid := if tc then get_next_change_id root else 0
  let settings2 := if tc then some (enableTrackChanges st.settings) else st.settings
  let r := replaceParas find repl tc author date root.paras cid
  (r.2.2, { doc := { paras := r.1, extraIds := root.extraIds }, settings := settings2 })

mutual

/-- The per-run body of `insert_text_after`: the first run whose `w:t`
text contains `anchor` is removed and replaced in place by a run for
`before ++ anchor`, then an insertion record (tracked) or plain run
(untracked) for `newText`, then a run for the non-empty remainder.
Returns `none` when no run in this element matches. -/
def insertInline (anchor newText : Str) (tc : Bool) (author date : String)
    (cid : Int) : Inline → Option (List Inline)
  | .run _ _ leaves =>
    let rt := runWT leaves
    if strContains rt anchor then
      let pr := pyPartition rt anchor
      some ([create_run (pr.1 ++ anchor) false false]
          ++ [if tc then create_tracked_insertion newText author cid date false false
              else create_run newText false false]
          ++ (if pr.2.2 = [] then [] else [create_run pr.2.2 false false]))
    else none
  | .wrap isIns idv a2 d2 cs =>
    (insertInlines anchor newText tc author date cid cs).map
      (fun cs2 => [Inline.wrap isIns idv a2 d2 cs2])
  | .other _ => none

/-- `insert_text_after`'s run scan over a sibling list, in document
(pre-)order, stopping at the first matching run. -/
def insertInlines (anchor newText : Str) (tc : Bool) (author date : String)
    (cid : Int) : List Inline → Option (List Inline)
  | [] => none
  | x :: xs =>
    match insertInline anchor newText tc author date cid x with
    | some repl2 => some (repl2 ++ xs)
    | none => (insertInlines anchor newText tc author date cid xs).map (x :: ·)

end

/-- One iteration of `insert_text_after`'s paragraph loop: paragraphs
whose full text does not contain `anchor` are skipped. -/
def insertPara (anchor newText : Str) (tc : Bool) (author date : String)
    (cid : Int) (p : Paragraph) : Option Paragraph :=
  if strContains (paraText p) anchor then
    insertInlines anchor newText tc author date cid p
  else none

/-- `insert_text_after`'s paragraph loop: first successful paragraph
wins, later paragraphs are untouched. -/
def insertParas (anchor newText : Str) (tc : Bool) (author date : String)
    (cid : Int) : List Paragraph → Option (List Paragraph)
  | [] => none
  | p :: ps =>
    match insertPara anchor newText tc author date cid p with
    | some p2 => some (p2 :: ps)
    | none => (insertParas anchor newText tc author date cid ps).map (p :: ·)

/-- `insert_text_after(folder, after_text, new_text, track_changes,
author)`: parse the document, allocate a change id and enable the
track-changes setting when tracking is requested (both happen before
the scan), then scan; on the first match the mutated document is saved
and `true` returned; otherwise `false` is returned and the document
part is not saved (the settings part, when tracking was requested, has
already been written). -/
def insert_text_after (st : DocState) (anchor newText : Str) (tc : Bool)
    (author date : String) : Bool × DocState :=
  let root := st.doc
  let cid := if tc then get_next_change_id root else 0
  let settings2 := if tc then some (enableTrackChanges st.settings) else st.settings
  match insertParas anchor newText tc author date cid root.paras with
  | some ps2 =>
    (true, { doc := { paras := ps2, extraIds := root.extraIds }, settings := settings2 })
  | none => (false, { doc := root, settings := settings2 })

/-- `delete_text(folder, text, track_changes, author)`: delegates to
`replace_text` with an empty replacement, in either mode. -/
def delete_text (st : DocState) (target : Str) (tc : Bool)
    (author date : String) : Nat × DocState :=
  if tc then replace_text st target [] tc author date
  else replace_text st target [] false author date

/-- The contiguous block of `k` integers starting at `c`, in increasing
order: the ids a tracked edit hands out. -/
def idBlock (c : Int) : Nat → List Int
  | 0 => []
  | k + 1 => c :: idBlock (c + 1) k

mutual

/-- The `get_text_content` texts of all `w:r` descendants of an inline
element, document (pre-)order — the values `find_runs` followed by
`get_text_content` yields. -/
def inlineRunTexts : Inline → List Str
  | .run _ _ leaves => [runWT leaves]
  | .wrap _ _ _ _ cs => inlineListRunTexts cs
  | .other _ => []

/-- Run texts over a sibling list, document order. -/
def inlineListRunTexts : List Inline → List Str
  | [] => []
  | x :: xs => inlineRunTexts x ++ inlineListRunTexts xs

end

/-- The texts of every run in the document, document order. -/
def docRunTexts (d : Document) : List Str :=
  (d.paras.map inlineListRunTexts).flatten

mutual

/-- Number of `w:ins` (insertion-record) wrappers in an inline element,
descendants included. -/
def inlineInsCount : Inline → Nat
  | .run _ _ _ => 0
  | .wrap isIns _ _ _ cs => (if isIns then 1 else 0) + inlineListInsCount cs
  | .other _ => 0

/-- Number of `w:ins` wrappers over a sibling list. -/
def inlineListInsCount : List Inline → Nat
  | [] => 0
  | x :: xs => inlineInsCount x + inlineListInsCount xs

end

/-- Number of `w:ins` wrappers in the whole document. -/
def docInsCount (d : Document) : Nat :=
  ((d.paras.map inlineListInsCount).foldl (· + ·) 0)

/-- Whether a leaf is a live `w:t` text node. -/
def isWT : TextLeaf → Bool
  | .t _ _ => true
  | .delText _ _ => false

/-- The preserve-whitespace attribute of a leaf. -/
def leafPreserve : TextLeaf → Bool
  | .t _ p => p
  | .delText _ p => p

/-! ### Concrete example states used by witnesses and counterexamples -/

/-- Example tree for C3's counterexample: a single identifier `-1`. -/
def exDocNegId : Document := { paras := [], extraIds := [IdVal.numeric (-1)] }

/-- Example tree for C3's witness: identifiers `{3, 7, 2}`. -/
def exDoc372 : Document :=
  { paras := [], extraIds := [IdVal.numeric 3, IdVal.numeric 7, IdVal.numeric 2] }

/-- Example tree for C3's witness: no identifiers. -/
def exDocNoIds : Document := { paras := [], extraIds := [] }

/-- Example tree for C3's witness: only negative identifiers. -/
def exDocAllNeg : Document :=
  { paras := [], extraIds := [IdVal.numeric (-3), IdVal.numeric (-1)] }

/-- Example state for C5's counterexample: one paragraph, one run
`"abc"`, no settings part. -/
def exStateAbc : DocState :=
  DocState.mk
    (Document.mk [[Inline.run false false [TextLeaf.t "abc".toList false]]] [])
    none

/-- Example state for C8's witness: one paragraph, one run `"hello"`. -/
def exStateHello : DocState :=
  DocState.mk
    (Document.mk [[Inline.run false false [TextLeaf.t "hello".toList false]]] [])
    none

/-- Example state for C7's counterexample and witness: one paragraph,
one run `"hello"`, no settings part. -/
def exStateNoAnchor : DocState :=
  DocState.mk
    (Document.mk [[Inline.run false false [TextLeaf.t "hello".toList false]]] [])
    none

/-- Example state for C6's witness: one paragraph whose runs are
`"Revenue: "` and `"$100"`. -/
def exStateRevenue : DocState :=
  DocState.mk
    (Document.mk
      [[Inline.run false false [TextLeaf.t "Revenue: ".toList false],
        Inline.run false false [TextLeaf.t "$100".toList false]]] [])
    none

/-- Example state for C9's witness: one paragraph containing `"abc"`
plus an existing tracked insertion with id `4`. -/
def exStateTracked : DocState :=
  DocState.mk
    (Document.mk
      [[Inline.wrap true (IdVal.numeric 4) "B" "D0"
          [Inline.run false false [TextLeaf.t "zz".toList false]],
        Inline.run false false [TextLeaf.t "abc".toList false]]] [])
    none

/-- Example run leaves for C10's witness: a deleted-text leaf followed
by two live text leaves. -/
def exLeavesMulti : List TextLeaf :=
  [TextLeaf.delText "gone".toList false,
   TextLeaf.t "hello world".toList false,
   TextLeaf.t "!!".toList true]

/-! ### String-search lemmas -/

theorem partitionStr_eq : ∀ {s pat b a : Str},
    partitionStr s pat = some (b, a) → s = b ++ pat ++ a := by
  intro s
  induction s with
  | nil =>
    intro pat b a h
    unfold partitionStr at h
    split at h
    · next hp =>
      rcases List.isPrefixOf_iff_prefix.mp hp with ⟨t, ht⟩
      have hpat : pat = [] := by
        cases pat with
        | nil => rfl
        | cons c cs => simp at ht
      subst hpat
      simp only [Option.some.injEq, Prod.mk.injEq] at h
      simp [← h.1, ← h.2]
    · simp at h
  | cons c rest ih =>
    intro pat b a h
    unfold partitionStr at h
    split at h
    · next hp =>
      rcases List.isPrefixOf_iff_prefix.mp hp with ⟨t, ht⟩
      have hdrop : (c :: rest).drop pat.length = t := by
        rw [← ht]; exact List.drop_left pat t
      simp only [Option.some.injEq, Prod.mk.injEq] at h
      rw [← h.1, ← h.2, hdrop]
      simp [← ht]
    · have h2 : (partitionStr rest pat).map (fun p => (c :: p.1, p.2)) = some (b, a) := h
      cases hrec : partitionStr rest pat with
      | none => rw [hrec] at h2; simp at h2
      | some p =>
        rw [hrec] at h2
        simp only [Option.map_some', Option.some.injEq, Prod.mk.injEq] at h2
        have hrest := ih hrec
        rw [← h2.1, ← h2.2]
        simp [hrest]

theorem contains_prefix_case (pat a : Str) : strContains (pat ++ a) pat = true := by
  have hp : pat.isPrefixOf (pat ++ a) = true :=
    List.isPrefixOf_iff_prefix.mpr (List.prefix_append pat a)
  simp only [strContains]
  unfold partitionStr
  split
  · simp
  · next hn => exact absurd hp hn

theorem contains_cons {s pat : Str} (c : Char) (h : strContains s pat = true) :
    strContains (c :: s) pat = true := by
  simp only [strContains] at h ⊢
  unfold partitionStr
  split
  · simp
  · simpa using h

theorem contains_of_parts : ∀ (b pat a : Str), strContains (b ++ pat ++ a) pat = true := by
  intro b
  induction b with
  | nil => intro pat a; simpa using contains_prefix_case pat a
  | cons c b' ih =>
    intro pat a
    have := contains_cons c (ih pat a)
    simpa using this

theorem strContains_iff {s pat : Str} :
    strContains s pat = true ↔ ∃ b a, s = b ++ pat ++ a := by
  constructor
  · intro h
    simp only [strContains, Option.isSome_iff_exists] at h
    rcases h with ⟨⟨b, a⟩, hba⟩
    exact ⟨b, a, partitionStr_eq hba⟩
  · rintro ⟨b, a, rfl⟩
    exact contains_of_parts b pat a

theorem contains_of_middle {s pat : Str} (x y : Str)
    (h : strContains s pat = true) : strContains (x ++ s ++ y) pat = true := by
  rcases strContains_iff.mp h with ⟨b, a, rfl⟩
  have : x ++ (b ++ pat ++ a) ++ y = (x ++ b) ++ pat ++ (a ++ y) := by simp
  rw [this]
  exact contains_of_parts _ _ _

theorem pyPartition_eq {s pat : Str} (h : strContains s pat = true) :
    s = (pyPartition s pat).1 ++ pat ++ (pyPartition s pat).2.2 := by
  simp only [strContains, Option.isSome_iff_exists] at h
  rcases h with ⟨⟨b, a⟩, hba⟩
  simp only [pyPartition, hba]
  simpa [List.append_assoc] using partitionStr_eq hba

theorem replaceAllAux_of_none {s f r : Str} (k : Nat)
    (h : partitionStr s f = none) : replaceAllAux (k + 1) s f r = s := by
  simp [replaceAllAux, h]

/-- When the leftmost occurrence of `f` in `s` is the only one (the
after-part has no further occurrence), `s.replace(f, r)` is exactly
`before ++ r ++ after`. -/
theorem replaceAll_single {s f r : Str} (hf : f ≠ [])
    (hc : strContains s f = true)
    (ha : strContains (pyPartition s f).2.2 f = false) :
    replaceAll s f r = (pyPartition s f).1 ++ r ++ (pyPartition s f).2.2 := by
  simp only [strContains, Option.isSome_iff_exists] at hc
  rcases hc with ⟨⟨b, a⟩, hba⟩
  have hparts : pyPartition s f = (b, f, a) := by simp [pyPartition, hba]
  have hs : s = b ++ f ++ a := partitionStr_eq hba
  have hnone : partitionStr a f = none := by
    rw [hparts] at ha
    simp only [strContains] at ha
    cases hpa : partitionStr a f with
    | none => rfl
    | some p => rw [hpa] at ha; simp at ha
  have hlen : ∃ k, s.length = k + 1 := by
    cases hs' : s with
    | nil =>
      exfalso
      rw [hs'] at hs
      cases f with
      | nil => exact hf rfl
      | cons c cs => simp at hs
    | cons c cs => exact ⟨cs.length, by simp⟩
  rcases hlen with ⟨k, hk⟩
  rw [hparts]
  simp only [replaceAll, hk]
  unfold replaceAllAux
  simp [hba, replaceAllAux_of_none k hnone]

/-! ### Change-ID bookkeeping -/

theorem idBlock_append : ∀ (m : Nat) (c : Int) (n : Nat),
    idBlock c (m + n) = idBlock c m ++ idBlock (c + m) n := by
  intro m
  induction m with
  | zero => intro c n; simp [idBlock]
  | succ k ih =>
    intro c n
    have : k + 1 + n = (k + n) + 1 := by omega
    rw [this]
    simp only [idBlock, ih (c + 1) n, List.cons_append]
    have : c + 1 + (k : Int) = c + (k + 1 : Nat) := by push_cast; ring
    rw [this]

theorem mem_idBlock : ∀ (k : Nat) (c x : Int), x ∈ idBlock c k ↔ c ≤ x ∧ x < c + k := by
  intro k
  induction k with
  | zero => intro c x; simp [idBlock]
  | succ m ih =>
    intro c x
    simp only [idBlock, List.mem_cons, ih (c + 1) x]
    constructor
    · rintro (rfl | ⟨h1, h2⟩)
      · refine ⟨le_refl x, ?_⟩
        have : ((m : Int) + 1) = ((m + 1 : Nat) : Int) := by push_cast; ring
        omega
      · push_cast at h2 ⊢; omega
    · rintro ⟨h1, h2⟩
      push_cast at h2
      by_cases hx : x = c
      · exact Or.inl hx
      · right
        refine ⟨by omega, ?_⟩
        have : ((m : Int) + 1) = ((m + 1 : Nat) : Int) := by push_cast; ring
        omega

theorem idBlock_nodup : ∀ (k : Nat) (c : Int), (idBlock c k).Nodup := by
  intro k
  induction k with
  | zero => intro c; simp [idBlock]
  | succ m ih =>
    intro c
    simp only [idBlock, List.nodup_cons]
    refine ⟨fun hc => ?_, ih (c + 1)⟩
    rcases (mem_idBlock m (c + 1) c).mp hc with ⟨h1, _⟩
    omega

theorem foldl_max_bounds : ∀ (l : List Int) (a : Int),
    a ≤ l.foldl max a ∧ ∀ x ∈ l, x ≤ l.foldl max a := by
  intro l
  induction l with
  | nil => intro a; simp
  | cons y ys ih =>
    intro a
    constructor
    · exact le_trans (le_max_left a y) (ih (max a y)).1
    · intro x hx
      rcases List.mem_cons.mp hx with rfl | hmem
      · exact le_trans (le_max_right a x) (ih (max a x)).1
      · exact (ih (max a y)).2 x hmem

theorem foldl_max_mem_or_eq : ∀ (l : List Int) (a : Int),
    l.foldl max a = a ∨ l.foldl max a ∈ l := by
  intro l
  induction l with
  | nil => intro a; simp
  | cons y ys ih =>
    intro a
    rcases ih (max a y) with heq | hmem
    · simp only [List.foldl_cons]
      rcases max_choice a y with hc | hc
      · left; rw [heq, hc]
      · right; rw [heq, hc]; exact List.mem_cons_self y ys
    · right
      simp only [List.foldl_cons]
      exact List.mem_cons_of_mem y hmem

/-- Every numeric id already in the tree is strictly below the id the
allocator returns. -/
theorem docNumIds_lt_next (d : Document) :
    ∀ x ∈ docNumIds d, x < get_next_change_id d := by
  intro x hx
  have := (foldl_max_bounds (docNumIds d) 0).2 x hx
  simp only [get_next_change_id]
  omega

/-! ### Append homomorphisms -/

theorem inlineListText_append : ∀ (xs ys : List Inline),
    inlineListText (xs ++ ys) = inlineListText xs ++ inlineListText ys := by
  intro xs ys
  induction xs with
  | nil => simp [inlineListText]
  | cons x l ih => simp [inlineListText, ih]

theorem inlineListIds_append : ∀ (xs ys : List Inline),
    inlineListIds (xs ++ ys) = inlineListIds xs ++ inlineListIds ys := by
  intro xs ys
  induction xs with
  | nil => simp [inlineListIds]
  | cons x l ih => simp [inlineListIds, ih]

theorem numericIds_append (xs ys : List IdVal) :
    numericIds (xs ++ ys) = numericIds xs ++ numericIds ys := by
  simp [numericIds, List.filterMap_append]

theorem runWT_append (xs ys : List TextLeaf) :
    runWT (xs ++ ys) = runWT xs ++ runWT ys := by
  simp [runWT]

theorem perm_append_swap (A P B Q : List Int) :
    ((A ++ P) ++ (B ++ Q)).Perm ((A ++ B) ++ (P ++ Q)) := by
  simp only [List.append_assoc]
  refine List.Perm.append_left A ?_
  have h := List.Perm.append_right Q (@List.perm_append_comm _ P B)
  simpa using h

theorem inlineIds_create_run (t : Str) (b i : Bool) :
    inlineIds (create_run t b i) = [] := by
  simp [create_run, inlineIds]

theorem inlineListIds_optRun (c : Prop) [Decidable c] (t : Str) :
    inlineListIds (if c then [] else [create_run t false false]) = [] := by
  split
  · simp [inlineListIds]
  · simp [inlineListIds, inlineIds_create_run]

theorem inlineIds_del (text : Str) (author : String) (cid : Int) (date : String) :
    inlineIds (create_tracked_deletion text author cid date) = [IdVal.numeric cid] := by
  simp [create_tracked_deletion, inlineIds, inlineListIds]

theorem inlineIds_ins (text : Str) (author : String) (cid : Int) (date : String)
    (b i : Bool) :
    inlineIds (create_tracked_insertion text author cid date b i)
      = [IdVal.numeric cid] := by
  simp [create_tracked_insertion, create_run, create_text_element, inlineIds,
    inlineListIds]

mutual

/-- Tracked replacement on one inline element consumes exactly two new
sequential ids per matched run, and its `w:id` values are, as a
multiset, the original ones plus the consumed block. -/
theorem replaceInline_cid_ids (find repl : Str) (author date : String)
    (x : Inline) (cid : Int) :
    (replaceInline find repl true author date x cid).2.1
        = cid + 2 * ((replaceInline find repl true author date x cid).2.2 : Int)
    ∧ (numericIds (inlineListIds (replaceInline find repl true author date x cid).1)).Perm
        (numericIds (inlineIds x)
          ++ idBlock cid (2 * (replaceInline find repl true author date x cid).2.2)) := by
  cases x with
  | run b i leaves =>
    by_cases hc : strContains (runWT leaves) find
    · simp only [replaceInline, hc, if_true]
      refine ⟨by push_cast; ring, ?_⟩
      simp only [inlineListIds_append, inlineListIds, inlineIds_del, inlineIds_ins,
        inlineListIds_optRun]
      simp [numericIds, numericIds_append, inlineIds, idBlock]
    · simp only [replaceInline, hc]
      refine ⟨by push_cast; ring, ?_⟩
      simp [inlineListIds, inlineIds, idBlock]
  | wrap isIns idv a2 d2 cs =>
    have ih := replaceInlines_cid_ids find repl author date cs cid
    simp only [replaceInline]
    refine ⟨ih.1, ?_⟩
    cases idv with
    | numeric n =>
      simp only [inlineListIds, inlineIds, numericIds, List.filterMap_cons,
        List.append_nil] at ih ⊢
      exact List.Perm.cons n ih.2
    | nonNumeric =>
      simp only [inlineListIds, inlineIds, numericIds, List.filterMap_cons,
        List.append_nil] at ih ⊢
      exact ih.2
  | other idv =>
    simp only [replaceInline]
    refine ⟨by push_cast; ring, ?_⟩
    simp [inlineListIds, inlineIds, idBlock]

/-- Tracked replacement over a sibling list: same statement, threading
the change id left to right. -/
theorem replaceInlines_cid_ids (find repl : Str) (author date : String)
    (l : List Inline) (cid : Int) :
    (replaceInlines find repl true author date l cid).2.1
        = cid + 2 * ((replaceInlines find repl true author date l cid).2.2 : Int)
    ∧ (numericIds (inlineListIds (replaceInlines find repl true author date l cid).1)).Perm
        (numericIds (inlineListIds l)
          ++ idBlock cid (2 * (replaceInlines find repl true author date l cid).2.2)) := by
  cases l with
  | nil =>
    simp only [replaceInlines]
    exact ⟨by push_cast; ring, by simp [inlineListIds, idBlock]⟩
  | cons x xs =>
    have ih1 := replaceInline_cid_ids find repl author date x cid
    have ih2 := replaceInlines_cid_ids find repl author date xs
      (replaceInline find repl true author date x cid).2.1
    simp only [replaceInlines]
    constructor
    · rw [ih2.1, ih1.1]
      push_cast
      ring
    · rw [inlineListIds_append, numericIds_append, inlineListIds, numericIds_append]
      have hsplit : idBlock cid
          (2 * ((replaceInline find repl true author date x cid).2.2
            + (replaceInlines find repl true author date xs
                (replaceInline find repl true author date x cid).2.1).2.2))
          = idBlock cid (2 * (replaceInline find repl true author date x cid).2.2)
            ++ idBlock ((replaceInline find repl true author date x cid).2.1)
                (2 * (replaceInlines find repl true author date xs
                  (replaceInline find repl true author date x cid).2.1).2.2) := by
        rw [Nat.mul_add, idBlock_append]
        rw [ih1.1]
        push_cast
        ring_nf
      rw [hsplit]
      exact (List.Perm.append ih1.2 ih2.2).trans
        (perm_append_swap _ _ _ _)

end

theorem replacePara_cid_ids (find repl : Str) (author date : String)
    (p : Paragraph) (cid : Int) :
    (replacePara find repl true author date p cid).2.1
        = cid + 2 * ((replacePara find repl true author date p cid).2.2 : Int)
    ∧ (numericIds (inlineListIds (replacePara find repl true author date p cid).1)).Perm
        (numericIds (inlineListIds p)
          ++ idBlock cid (2 * (replacePara find repl true author date p cid).2.2)) := by
  unfold replacePara
  split
  · exact replaceInlines_cid_ids find repl author date p cid
  · exact ⟨by push_cast; ring, by simp [idBlock]⟩

theorem replaceParas_cid_ids (find repl : Str) (author date : String) :
    ∀ (ps : List Paragraph) (cid : Int),
    (replaceParas find repl true author date ps cid).2.1
        = cid + 2 * ((replaceParas find repl true author date ps cid).2.2 : Int)
    ∧ (numericIds (((replaceParas find repl true author date ps cid).1.map
          inlineListIds).flatten)).Perm
        (numericIds ((ps.map inlineListIds).flatten)
          ++ idBlock cid (2 * (replaceParas find repl true author date ps cid).2.2)) := by
  intro ps
  induction ps with
  | nil =>
    intro cid
    simp only [replaceParas]
    exact ⟨by push_cast; ring, by simp [idBlock]⟩
  | cons p rest ih =>
    intro cid
    have ih1 := replacePara_cid_ids find repl author date p cid
    have ih2 := ih (replacePara find repl true author date p cid).2.1
    simp only [replaceParas]
    constructor
    · rw [ih2.1, ih1.1]
      push_cast
      ring
    · simp only [List.map_cons, List.flatten_cons, numericIds_append]
      have hsplit : idBlock cid
          (2 * ((replacePara find repl true author date p cid).2.2
            + (replaceParas find repl true author date rest
                (replacePara find repl true author date p cid).2.1).2.2))
          = idBlock cid (2 * (replacePara find repl true author date p cid).2.2)
            ++ idBlock ((replacePara find repl true author date p cid).2.1)
                (2 * (replaceParas find repl true author date rest
                  (replacePara find repl true author date p cid).2.1).2.2) := by
        rw [Nat.mul_add, idBlock_append]
        rw [ih1.1]
        push_cast
        ring_nf
      rw [hsplit]
      exact (List.Perm.append ih1.2 ih2.2).trans (perm_append_swap _ _ _ _)

/-! ### Insert-scan lemmas -/

mutual

/-- When no run reachable from an inline element has text containing
the anchor, the insert scan of that element finds nothing. -/
theorem insertInline_none (anchor newText : Str) (tc : Bool) (author date : String)
    (cid : Int) (x : Inline)
    (h : ∀ t ∈ inlineRunTexts x, strContains t anchor = false) :
    insertInline anchor newText tc author date cid x = none := by
  cases x with
  | run b i leaves =>
    have hr : strContains (runWT leaves) anchor = false := by
      apply h
      simp [inlineRunTexts]
    simp [insertInline, hr]
  | wrap isIns idv a2 d2 cs =>
    have hcs : insertInlines anchor newText tc author date cid cs = none := by
      apply insertInlines_none
      intro t ht
      apply h
      simpa [inlineRunTexts] using ht
    simp [insertInline, hcs]
  | other idv => simp [insertInline]

/-- Same over a sibling list. -/
theorem insertInlines_none (anchor newText : Str) (tc : Bool) (author date : String)
    (cid : Int) (l : List Inline)
    (h : ∀ t ∈ inlineListRunTexts l, strContains t anchor = false) :
    insertInlines anchor newText tc author date cid l = none := by
  cases l with
  | nil => simp [insertInlines]
  | cons x xs =>
    have hx : insertInline anchor newText tc author date cid x = none := by
      apply insertInline_none
      intro t ht
      apply h
      simp [inlineListRunTexts, ht]
    have hxs : insertInlines anchor newText tc author date cid xs = none := by
      apply insertInlines_none
      intro t ht
      apply h
      simp [inlineListRunTexts, ht]
    simp [insertInlines, hx, hxs]

end

theorem insertPara_none (anchor newText : Str) (tc : Bool) (author date : String)
    (cid : Int) (p : Paragraph)
    (h : ∀ t ∈ inlineListRunTexts p, strContains t anchor = false) :
    insertPara anchor newText tc author date cid p = none := by
  unfold insertPara
  split
  · exact insertInlines_none anchor newText tc author date cid p h
  · rfl

theorem insertParas_none (anchor newText : Str) (tc : Bool) (author date : String)
    (cid : Int) : ∀ (ps : List Paragraph),
    (∀ p ∈ ps, ∀ t ∈ inlineListRunTexts p, strContains t anchor = false) →
    insertParas anchor newText tc author date cid ps = none := by
  intro ps
  induction ps with
  | nil => intro _; simp [insertParas]
  | cons p rest ih =>
    intro h
    have hp : insertPara anchor newText tc author date cid p = none :=
      insertPara_none anchor newText tc author date cid p
        (h p (List.mem_cons_self p rest))
    have hrest : insertParas anchor newText tc author date cid rest = none :=
      ih (fun q hq => h q (List.mem_cons_of_mem p hq))
    simp [insertParas, hp, hrest]

theorem insertInlines_cons_none (anchor newText : Str) (tc : Bool)
    (author date : String) (cid : Int) (x : Inline) (xs : List Inline)
    (h : insertInline anchor newText tc author date cid x = none) :
    insertInlines anchor newText tc author date cid (x :: xs)
      = (insertInlines anchor newText tc author date cid xs).map (x :: ·) := by
  simp [insertInlines, h]

theorem insertInlines_cons_some (anchor newText : Str) (tc : Bool)
    (author date : String) (cid : Int) (x : Inline) (xs r : List Inline)
    (h : insertInline anchor newText tc author date cid x = some r) :
    insertInlines anchor newText tc author date cid (x :: xs) = some (r ++ xs) := by
  simp [insertInlines, h]

theorem insertParas_cons_none (anchor newText : Str) (tc : Bool)
    (author date : String) (cid : Int) (p : Paragraph) (ps : List Paragraph)
    (h : insertPara anchor newText tc author date cid p = none) :
    insertParas anchor newText tc author date cid (p :: ps)
      = (insertParas anchor newText tc author date cid ps).map (p :: ·) := by
  simp [insertParas, h]

theorem insertParas_cons_some (anchor newText : Str) (tc : Bool)
    (author date : String) (cid : Int) (p p2 : Paragraph) (ps : List Paragraph)
    (h : insertPara anchor newText tc author date cid p = some p2) :
    insertParas anchor newText tc author date cid (p :: ps) = some (p2 :: ps) := by
  simp [insertParas, h]

theorem insertInlines_append_of_none (anchor newText : Str) (tc : Bool)
    (author date : String) (cid : Int) :
    ∀ (pre rest : List Inline),
    insertInlines anchor newText tc author date cid pre = none →
    insertInlines anchor newText tc author date cid (pre ++ rest)
      = (insertInlines anchor newText tc author date cid rest).map (pre ++ ·) := by
  intro pre
  induction pre with
  | nil =>
    intro rest _
    simp
  | cons x xs ih =>
    intro rest h
    have hx : insertInline anchor newText tc author date cid x = none := by
      cases hix : insertInline anchor newText tc author date cid x with
      | none => rfl
      | some r => rw [insertInlines_cons_some anchor newText tc author date cid x xs r hix] at h; simp at h
    rw [insertInlines_cons_none anchor newText tc author date cid x xs hx] at h
    have hxs : insertInlines anchor newText tc author date cid xs = none := by
      cases hixs : insertInlines anchor newText tc author date cid xs with
      | none => rfl
      | some r => rw [hixs] at h; simp at h
    rw [List.cons_append,
      insertInlines_cons_none anchor newText tc author date cid x (xs ++ rest) hx,
      ih rest hxs]
    cases insertInlines anchor newText tc author date cid rest with
    | none => simp
    | some r => simp

theorem insertParas_append_of_none (anchor newText : Str) (tc : Bool)
    (author date : String) (cid : Int) :
    ∀ (ps1 ps2 : List Paragraph),
    insertParas anchor newText tc author date cid ps1 = none →
    insertParas anchor newText tc author date cid (ps1 ++ ps2)
      = (insertParas anchor newText tc author date cid ps2).map (ps1 ++ ·) := by
  intro ps1
  induction ps1 with
  | nil =>
    intro ps2 _
    simp
  | cons p rest ih =>
    intro ps2 h
    have hp : insertPara anchor newText tc author date cid p = none := by
      cases hip : insertPara anchor newText tc author date cid p with
      | none => rfl
      | some r => rw [insertParas_cons_some anchor newText tc author date cid p r rest hip] at h; simp at h
    rw [insertParas_cons_none anchor newText tc author date cid p rest hp] at h
    have hrest : insertParas anchor newText tc author date cid rest = none := by
      cases hir : insertParas anchor newText tc author date cid rest with
      | none => rfl
      | some r => rw [hir] at h; simp at h
    rw [List.cons_append,
      insertParas_cons_none anchor newText tc author date cid p (rest ++ ps2) hp,
      ih ps2 hrest]
    cases insertParas anchor newText tc author date cid ps2 with
    | none => simp
    | some r => simp

/-! ### First-text-leaf lemmas -/

theorem runWT_of_no_wt : ∀ (pre : List TextLeaf), (∀ l ∈ pre, isWT l = false) →
    runWT pre = [] := by
  intro pre
  induction pre with
  | nil => intro _; simp [runWT]
  | cons l ls ih =>
    intro h
    cases l with
    | t txt p =>
      have := h (.t txt p) (List.mem_cons_self _ _)
      simp [isWT] at this
    | delText txt p =>
      have := ih (fun x hx => h x (List.mem_cons_of_mem _ hx))
      simp [runWT, leafWT] at this ⊢
      exact this

theorem exists_first_wt : ∀ (leaves : List TextLeaf), runWT leaves ≠ [] →
    ∃ pre txt p post, leaves = pre ++ TextLeaf.t txt p :: post
      ∧ ∀ l ∈ pre, isWT l = false := by
  intro leaves
  induction leaves with
  | nil => intro h; simp [runWT] at h
  | cons l ls ih =>
    intro h
    cases l with
    | t txt p => exact ⟨[], txt, p, ls, by simp, by simp⟩
    | delText txt p =>
      have hls : runWT ls ≠ [] := by
        intro hc
        apply h
        simp [runWT, leafWT] at hc ⊢
        exact hc
      rcases ih hls with ⟨pre, txt2, p2, post, heq, hpre⟩
      refine ⟨.delText txt p :: pre, txt2, p2, post, by simp [heq], ?_⟩
      intro x hx
      rcases List.mem_cons.mp hx with rfl | hmem
      · simp [isWT]
      · exact hpre x hmem

theorem setFirstTLeaf_decomp : ∀ (pre : List TextLeaf) (txt s : Str) (p : Bool)
    (post : List TextLeaf), (∀ l ∈ pre, isWT l = false) →
    setFirstTLeaf (pre ++ TextLeaf.t txt p :: post) s
      = pre ++ TextLeaf.t s p :: post := by
  intro pre
  induction pre with
  | nil => intro txt s p post _; simp [setFirstTLeaf]
  | cons l ls ih =>
    intro txt s p post h
    cases l with
    | t t2 p2 =>
      have := h (.t t2 p2) (List.mem_cons_self _ _)
      simp [isWT] at this
    | delText t2 p2 =>
      simp only [List.cons_append, setFirstTLeaf, List.append_eq]
      rw [ih txt s p post (fun x hx => h x (List.mem_cons_of_mem _ hx))]

/-! ### Whitespace-flag characterizations -/

theorem startsWithSpace_iff (s : Str) :
    startsWithSpace s = true ↔ ∃ r, s = ' ' :: r := by
  cases s with
  | nil => simp [startsWithSpace]
  | cons c r =>
    simp only [startsWithSpace, decide_eq_true_eq]
    constructor
    · rintro rfl; exact ⟨r, rfl⟩
    · rintro ⟨r2, hr⟩
      cases hr
      rfl

theorem endsWithSpace_iff (s : Str) :
    endsWithSpace s = true ↔ ∃ i, s = i ++ [' '] := by
  unfold endsWithSpace
  cases hl : s.getLast? with
  | none =>
    have hs : s = [] := List.getLast?_eq_none_iff.mp hl
    subst hs
    simp
  | some c =>
    rcases List.getLast?_eq_some_iff.mp hl with ⟨l2, hli⟩
    simp only [decide_eq_true_eq]
    constructor
    · rintro rfl
      exact ⟨l2, hli⟩
    · rintro ⟨i, rfl⟩
      have : (i ++ [' ']).getLast? = some ' ' := List.getLast?_concat i
      rw [this] at hl
      injection hl with h1
      exact h1.symm

/-! ### Replace-scan composition -/

theorem replaceInlines_cons_eq (find repl : Str) (tc : Bool) (author date : String)
    (x : Inline) (xs : List Inline) (cid : Int) :
    replaceInlines find repl tc author date (x :: xs) cid
      = ((replaceInline find repl tc author date x cid).1
          ++ (replaceInlines find repl tc author date xs
              (replaceInline find repl tc author date x cid).2.1).1,
        (replaceInlines find repl tc author date xs
            (replaceInline find repl tc author date x cid).2.1).2.1,
        (replaceInline find repl tc author date x cid).2.2
          + (replaceInlines find repl tc author date xs
              (replaceInline find repl tc author date x cid).2.1).2.2) := by
  simp [replaceInlines]

theorem replaceInlines_append (find repl : Str) (tc : Bool) (author date : String) :
    ∀ (xs ys : List Inline) (cid : Int),
    replaceInlines find repl tc author date (xs ++ ys) cid
      = ((replaceInlines find repl tc author date xs cid).1
          ++ (replaceInlines find repl tc author date ys
              (replaceInlines find repl tc author date xs cid).2.1).1,
        (replaceInlines find repl tc author date ys
            (replaceInlines find repl tc author date xs cid).2.1).2.1,
        (replaceInlines find repl tc author date xs cid).2.2
          + (replaceInlines find repl tc author date ys
              (replaceInlines find repl tc author date xs cid).2.1).2.2) := by
  intro xs
  induction xs with
  | nil =>
    intro ys cid
    simp [replaceInlines]
  | cons x l ih =>
    intro ys cid
    have hcons : ∀ (zs : List Inline) (c : Int),
        replaceInlines find repl tc author date (x :: zs) c
          = ((replaceInline find repl tc author date x c).1
              ++ (replaceInlines find repl tc author date zs
                  (replaceInline find repl tc author date x c).2.1).1,
            (replaceInlines find repl tc author date zs
                (replaceInline find repl tc author date x c).2.1).2.1,
            (replaceInline find repl tc author date x c).2.2
              + (replaceInlines find repl tc author date zs
                  (replaceInline find repl tc author date x c).2.1).2.2) := by
      intro zs c
      simp [replaceInlines]
    rw [List.cons_append, hcons (l ++ ys) cid, ih ys, hcons l cid]
    simp [Nat.add_assoc]

/-- When no paragraph's text contains `find`, the paragraph loop leaves
every paragraph untouched, consumes no ids and counts nothing. -/
theorem replaceParas_no_match (find repl : Str) (tc : Bool) (author date : String) :
    ∀ (ps : List Paragraph) (cid : Int),
    (∀ p ∈ ps, strContains (paraText p) find = false) →
    replaceParas find repl tc author date ps cid = (ps, cid, 0) := by
  intro ps
  induction ps with
  | nil => intro cid _; simp [replaceParas]
  | cons p rest ih =>
    intro cid h
    have hp : replacePara find repl tc author date p cid = (p, cid, 0) := by
      unfold replacePara
      rw [h p (List.mem_cons_self p rest)]
      simp
    have hrest := ih cid (fun q hq => h q (List.mem_cons_of_mem p hq))
    simp [replaceParas, hp, hrest]

/-! ### Claim theorems -/

/-- C3 counterexample: on a tree whose only identifier is `-1`, the
allocator returns `1`, not "one greater than the maximum integer value"
(which would be `0`): the claim as stated is false. -/
theorem c3_counterexample :
    docNumIds exDocNegId = [-1]
    ∧ get_next_change_id exDocNegId = 1
    ∧ (1 : Int) ≠ (-1) + 1 := by
  refine ⟨by decide, by decide, by decide⟩

/-- C3 (amended): `nextId` returns one greater than the maximum of `0`
and all numeric identifier values: every existing numeric id is
strictly below the result (so the result is never an id already
present), a tree with no numeric ids yields `1`, a tree whose numeric
ids are all negative also yields `1`, and whenever some non-negative id
exists the result is exactly the maximum id plus one. -/
theorem c3_next_change_id (d : Document) :
    (∀ x ∈ docNumIds d, x < get_next_change_id d)
    ∧ (docNumIds d = [] → get_next_change_id d = 1)
    ∧ ((∀ x ∈ docNumIds d, x < 0) → get_next_change_id d = 1)
    ∧ ((∃ x ∈ docNumIds d, 0 ≤ x) →
        ∃ m ∈ docNumIds d, get_next_change_id d = m + 1
          ∧ ∀ y ∈ docNumIds d, y ≤ m) := by
  refine ⟨docNumIds_lt_next d, ?_, ?_, ?_⟩
  · intro h
    simp [get_next_change_id, h]
  · intro h
    have hfold : (docNumIds d).foldl max 0 = 0 := by
      rcases foldl_max_mem_or_eq (docNumIds d) 0 with heq | hmem
      · exact heq
      · have h1 := h _ hmem
        have h2 := (foldl_max_bounds (docNumIds d) 0).1
        omega
    simp [get_next_change_id, hfold]
  · rintro ⟨x, hx, hx0⟩
    rcases foldl_max_mem_or_eq (docNumIds d) 0 with heq | hmem
    · have hxle := (foldl_max_bounds (docNumIds d) 0).2 x hx
      rw [heq] at hxle
      have hx0' : x = 0 := le_antisymm hxle hx0
      refine ⟨x, hx, ?_, ?_⟩
      · simp [get_next_change_id, heq, hx0']
      · intro y hy
        have := (foldl_max_bounds (docNumIds d) 0).2 y hy
        rw [heq] at this
        omega
    · refine ⟨(docNumIds d).foldl max 0, hmem, rfl, ?_⟩
      exact (foldl_max_bounds (docNumIds d) 0).2

/-- C3 witness: on a tree with ids `{3, 7, 2}` the amended theorem
produces the maximal id `7` with result `8`; on a tree with no ids, and
on a tree whose ids are all negative (`{-3, -1}`), the result is
`1`. -/
theorem c3_witness :
    (∃ m ∈ docNumIds exDoc372,
      get_next_change_id exDoc372 = m + 1 ∧ ∀ y ∈ docNumIds exDoc372, y ≤ m)
    ∧ get_next_change_id exDoc372 = 8
    ∧ get_next_change_id exDocNoIds = 1
    ∧ get_next_change_id exDocAllNeg = 1 :=
  ⟨(c3_next_change_id exDoc372).2.2.2 ⟨3, by decide, by decide⟩, by decide,
    (c3_next_change_id exDocNoIds).2.1 (by decide),
    (c3_next_change_id exDocAllNeg).2.2.1 (by decide)⟩

/-- C4: a text leaf built by the synthesizer — the `w:t` leaf of a plain
run and the `w:delText` leaf of a deletion record alike — carries the
whitespace-preservation flag iff its text starts or ends with a space
character. -/
theorem c4_preserve_flag (text : Str) (author : String) (cid : Int) (date : String) :
    (∃ fl : Bool, create_text_element text true = TextLeaf.t text fl
        ∧ (fl = true ↔ (∃ r, text = ' ' :: r) ∨ (∃ i, text = i ++ [' '])))
    ∧ (∃ fl : Bool, create_tracked_deletion text author cid date
          = Inline.wrap false (IdVal.numeric cid) author date
              [Inline.run false false [TextLeaf.delText text fl]]
        ∧ (fl = true ↔ (∃ r, text = ' ' :: r) ∨ (∃ i, text = i ++ [' ']))) := by
  constructor
  · refine ⟨startsWithSpace text || endsWithSpace text, ?_, ?_⟩
    · simp [create_text_element]
    · simp [Bool.or_eq_true, startsWithSpace_iff, endsWithSpace_iff]
  · refine ⟨startsWithSpace text || endsWithSpace text, rfl, ?_⟩
    simp [Bool.or_eq_true, startsWithSpace_iff, endsWithSpace_iff]

/-- C4 example: a leaf built from `" hello "` carries the flag, one
built from `"hello"` does not. -/
theorem c4_example :
    leafPreserve (create_text_element " hello ".toList true) = true
    ∧ leafPreserve (create_text_element "hello".toList true) = false := by
  refine ⟨by decide, by decide⟩

/-- C5 (amended): `delete` delegates to `replace` with the empty
replacement in both modes, returning the replacement count as the
deletion count; in tracked mode this yields a deletion record followed
by an insertion record with empty text (not a pure deletion record). -/
theorem c5_delete_refines_replace (st : DocState) (target : Str) (tc : Bool)
    (author date : String) :
    delete_text st target tc author date
      = replace_text st target [] tc author date := by
  unfold delete_text
  cases tc
  · rfl
  · rfl

/-- C5 counterexample: a tracked delete of `"b"` from run `"abc"`
produces, besides the deletion record, an insertion record with empty
text — the result is not a pure deletion record. -/
theorem c5_counterexample :
    (delete_text exStateAbc "b".toList true "A" "D").1 = 1
    ∧ (delete_text exStateAbc "b".toList true "A" "D").2.doc.paras
      = [[create_run "a".toList false false,
          create_tracked_deletion "b".toList "A" 1 "D",
          create_tracked_insertion [] "A" 2 "D" false false,
          create_run "c".toList false false]]
    ∧ docInsCount (delete_text exStateAbc "b".toList true "A" "D").2.doc = 1 := by
  refine ⟨by decide, by rfl, by decide⟩

/-- C8: for non-empty `find` contained in no paragraph's text, `replace`
returns `0` and the document tree is unchanged (so a save produces the
same bytes as a plain load→save round trip). -/
theorem c8_replace_absent (st : DocState) (find repl : Str) (tc : Bool)
    (author date : String) (_hne : find ≠ [])
    (habs : ∀ p ∈ st.doc.paras, strContains (paraText p) find = false) :
    (replace_text st find repl tc author date).1 = 0
    ∧ (replace_text st find repl tc author date).2.doc = st.doc := by
  have h := replaceParas_no_match find repl tc author date st.doc.paras
    (if tc then get_next_change_id st.doc else 0) habs
  constructor
  · show (replaceParas find repl tc author date st.doc.paras
      (if tc then get_next_change_id st.doc else 0)).2.2 = 0
    rw [h]
  · show Document.mk (replaceParas find repl tc author date st.doc.paras
        (if tc then get_next_change_id st.doc else 0)).1 st.doc.extraIds = st.doc
    rw [h]

/-- C8 witness: a concrete document without the search text. -/
theorem c8_witness :
    ("xyz".toList ≠ ([] : Str))
    ∧ (∀ p ∈ exStateHello.doc.paras, strContains (paraText p) "xyz".toList = false)
    ∧ (replace_text exStateHello "xyz".toList "q".toList true "A" "D").1 = 0
    ∧ (replace_text exStateHello "xyz".toList "q".toList true "A" "D").2.doc
      = exStateHello.doc :=
  ⟨by decide, by decide,
    (c8_replace_absent exStateHello _ _ _ _ _ (by decide) (by decide)).1,
    (c8_replace_absent exStateHello _ _ _ _ _ (by decide) (by decide)).2⟩

/-- C2 counterexample: on a run with text `"aa"`, `find = "a"`,
`replacement = "b"`, untracked replace writes `"bb"` (all occurrences),
while the claimed `before ++ replacement ++ after` partition result is
`"ba"`. -/
theorem c2_counterexample :
    replaceInline "a".toList "b".toList false "A" "D"
        (Inline.run false false [TextLeaf.t "aa".toList false]) 0
      = ([Inline.run false false [TextLeaf.t "bb".toList false]], 0, 1)
    ∧ (pyPartition "aa".toList "a".toList).1 ++ "b".toList
        ++ (pyPartition "aa".toList "a".toList).2.2 = "ba".toList
    ∧ "bb".toList ≠ "ba".toList := by
  refine ⟨by rfl, by decide, by decide⟩

/-- C2 (amended): untracked replace keeps the run element and its
formatting and writes `run_text.replace(find, replacement)` — every
non-overlapping occurrence, left to right — into the run's first text
leaf; when the text after the leftmost occurrence contains no further
occurrence (in particular when `find` occurs exactly once), this equals
`before ++ replacement ++ after`. -/
theorem c2_untracked_replace (b i : Bool) (leaves : List TextLeaf)
    (find repl : Str) (cid : Int) (author date : String)
    (hc : strContains (runWT leaves) find = true) :
    replaceInline find repl false author date (Inline.run b i leaves) cid
      = ([Inline.run b i (setFirstTLeaf leaves (replaceAll (runWT leaves) find repl))],
        cid, 1)
    ∧ (find ≠ [] → strContains (pyPartition (runWT leaves) find).2.2 find = false →
        replaceAll (runWT leaves) find repl
          = (pyPartition (runWT leaves) find).1 ++ repl
            ++ (pyPartition (runWT leaves) find).2.2) := by
  refine ⟨by simp [replaceInline, hc], fun hf ha => replaceAll_single hf hc ha⟩

/-- C2 witness: run `"hello world"`, `find = "world"` (one occurrence),
`replacement = "earth"`. -/
theorem c2_witness :
    strContains (runWT [TextLeaf.t "hello world".toList false]) "world".toList = true
    ∧ replaceInline "world".toList "earth".toList false "A" "D"
        (Inline.run false false [TextLeaf.t "hello world".toList false]) 0
      = ([Inline.run false false (setFirstTLeaf [TextLeaf.t "hello world".toList false]
          (replaceAll (runWT [TextLeaf.t "hello world".toList false])
            "world".toList "earth".toList))], 0, 1)
    ∧ replaceAll (runWT [TextLeaf.t "hello world".toList false])
          "world".toList "earth".toList
      = (pyPartition (runWT [TextLeaf.t "hello world".toList false]) "world".toList).1
        ++ "earth".toList
        ++ (pyPartition (runWT [TextLeaf.t "hello world".toList false])
            "world".toList).2.2 :=
  ⟨by decide,
   (c2_untracked_replace false false [TextLeaf.t "hello world".toList false]
      "world".toList "earth".toList 0 "A" "D" (by decide)).1,
   (c2_untracked_replace false false [TextLeaf.t "hello world".toList false]
      "world".toList "earth".toList 0 "A" "D" (by decide)).2 (by decide) (by decide)⟩

/-- C10: on a run with several text leaves whose concatenated text
contains `find`, untracked replace writes the whole substituted run
text into the run's first `w:t` leaf only, leaving every later leaf
unchanged; the run's concatenated text afterwards is the substituted
text followed by the remaining leaves' original content. -/
theorem c10_first_leaf_write (b i : Bool) (leaves : List TextLeaf)
    (find repl : Str) (cid : Int) (author date : String) (hf : find ≠ [])
    (hc : strContains (runWT leaves) find = true) :
    ∃ pre txt p post, leaves = pre ++ TextLeaf.t txt p :: post
      ∧ (∀ l ∈ pre, isWT l = false)
      ∧ replaceInline find repl false author date (Inline.run b i leaves) cid
          = ([Inline.run b i (pre ++ TextLeaf.t
              (replaceAll (runWT leaves) find repl) p :: post)], cid, 1)
      ∧ runWT (pre ++ TextLeaf.t (replaceAll (runWT leaves) find repl) p :: post)
          = replaceAll (runWT leaves) find repl ++ runWT post := by
  have hne : runWT leaves ≠ [] := by
    intro h0
    rcases strContains_iff.mp hc with ⟨b2, a2, hparts⟩
    rw [h0] at hparts
    cases find with
    | nil => exact hf rfl
    | cons c cs =>
      cases b2 with
      | nil => simp at hparts
      | cons d ds => simp at hparts
  rcases exists_first_wt leaves hne with ⟨pre, txt, p, post, heq, hpre⟩
  refine ⟨pre, txt, p, post, heq, hpre, ?_, ?_⟩
  · have hset : setFirstTLeaf leaves (replaceAll (runWT leaves) find repl)
        = pre ++ TextLeaf.t (replaceAll (runWT leaves) find repl) p :: post := by
      generalize replaceAll (runWT leaves) find repl = s
      rw [heq]
      exact setFirstTLeaf_decomp pre txt s p post hpre
    simp [replaceInline, hc, hset]
  · rw [runWT_append, runWT_of_no_wt pre hpre]
    simp [runWT, leafWT]

/-- C10 witness: a run with a deleted-text leaf and two live text
leaves, `find = "world"` spanning only the second leaf. -/
theorem c10_witness :
    ("world".toList ≠ ([] : Str))
    ∧ strContains (runWT exLeavesMulti) "world".toList = true
    ∧ ∃ pre txt p post, exLeavesMulti = pre ++ TextLeaf.t txt p :: post
      ∧ (∀ l ∈ pre, isWT l = false)
      ∧ replaceInline "world".toList "earth".toList false "A" "D"
          (Inline.run false false exLeavesMulti) 0
        = ([Inline.run false false (pre ++ TextLeaf.t
            (replaceAll (runWT exLeavesMulti) "world".toList "earth".toList)
            p :: post)], 0, 1)
      ∧ runWT (pre ++ TextLeaf.t
            (replaceAll (runWT exLeavesMulti) "world".toList "earth".toList)
            p :: post)
        = replaceAll (runWT exLeavesMulti) "world".toList "earth".toList
          ++ runWT post :=
  ⟨by decide, by decide,
   c10_first_leaf_write false false exLeavesMulti "world".toList "earth".toList
     0 "A" "D" (by decide) (by decide)⟩

/-- C1: tracked replace, applied to a sibling list containing a run
whose text contains `find`, removes that run and inserts at its
position, in document order, the optional plain run for the text before
the leftmost occurrence, then a deletion record for `find`, then an
insertion record for the replacement with the next id, then the
optional plain run for the remaining text; and every tracked scan
consumes exactly two sequential ids per matched run (final id = start +
2·count), so the deletion id immediately precedes the insertion id. -/
theorem c1_tracked_splice (b i : Bool) (leaves : List TextLeaf)
    (find repl : Str) (author date : String) (pre post : List Inline) (cid : Int)
    (hc : strContains (runWT leaves) find = true) :
    replaceInlines find repl true author date
        (pre ++ Inline.run b i leaves :: post) cid
      = ((replaceInlines find repl true author date pre cid).1
          ++ ((if (pyPartition (runWT leaves) find).1 = [] then []
                else [create_run (pyPartition (runWT leaves) find).1 false false])
              ++ [create_tracked_deletion find author
                    (replaceInlines find repl true author date pre cid).2.1 date,
                  create_tracked_insertion repl author
                    ((replaceInlines find repl true author date pre cid).2.1 + 1)
                    date false false]
              ++ (if (pyPartition (runWT leaves) find).2.2 = [] then []
                  else [create_run (pyPartition (runWT leaves) find).2.2 false false]))
          ++ (replaceInlines find repl true author date post
              ((replaceInlines find repl true author date pre cid).2.1 + 2)).1,
        (replaceInlines find repl true author date post
            ((replaceInlines find repl true author date pre cid).2.1 + 2)).2.1,
        (replaceInlines find repl true author date pre cid).2.2
          + (1 + (replaceInlines find repl true author date post
              ((replaceInlines find repl true author date pre cid).2.1 + 2)).2.2))
    ∧ ∀ (items : List Inline) (c : Int),
        (replaceInlines find repl true author date items c).2.1
          = c + 2 * ((replaceInlines find repl true author date items c).2.2 : Int) := by
  constructor
  · have hrun : ∀ c : Int, replaceInline find repl true author date
        (Inline.run b i leaves) c
        = ((if (pyPartition (runWT leaves) find).1 = [] then []
              else [create_run (pyPartition (runWT leaves) find).1 false false])
            ++ [create_tracked_deletion find author c date,
                create_tracked_insertion repl author (c + 1) date false false]
            ++ (if (pyPartition (runWT leaves) find).2.2 = [] then []
                else [create_run (pyPartition (runWT leaves) find).2.2 false false]),
          c + 2, 1) := by
      intro c
      simp [replaceInline, hc]
    rw [replaceInlines_append, replaceInlines_cons_eq, hrun]
    simp [List.append_assoc]
  · intro items c
    exact (replaceInlines_cid_ids find repl author date items c).1

/-- C1 witness: the spec's end-to-end example — paragraph
`["Revenue: ", "$100"]`, tracked replace of `"$100"`. -/
theorem c1_witness :
    strContains (runWT [TextLeaf.t "$100".toList false]) "$100".toList = true
    ∧ replaceInlines "$100".toList "$200".toList true "A" "D"
        ([Inline.run false false [TextLeaf.t "Revenue: ".toList false]]
          ++ Inline.run false false [TextLeaf.t "$100".toList false] :: []) 1
      = ((replaceInlines "$100".toList "$200".toList true "A" "D"
            [Inline.run false false [TextLeaf.t "Revenue: ".toList false]] 1).1
          ++ ((if (pyPartition (runWT [TextLeaf.t "$100".toList false])
                  "$100".toList).1 = [] then []
                else [create_run (pyPartition (runWT [TextLeaf.t "$100".toList false])
                  "$100".toList).1 false false])
              ++ [create_tracked_deletion "$100".toList "A"
                    (replaceInlines "$100".toList "$200".toList true "A" "D"
                      [Inline.run false false [TextLeaf.t "Revenue: ".toList false]]
                      1).2.1 "D",
                  create_tracked_insertion "$200".toList "A"
                    ((replaceInlines "$100".toList "$200".toList true "A" "D"
                      [Inline.run false false [TextLeaf.t "Revenue: ".toList false]]
                      1).2.1 + 1) "D" false false]
              ++ (if (pyPartition (runWT [TextLeaf.t "$100".toList false])
                  "$100".toList).2.2 = [] then []
                  else [create_run (pyPartition (runWT [TextLeaf.t "$100".toList false])
                    "$100".toList).2.2 false false]))
          ++ (replaceInlines "$100".toList "$200".toList true "A" "D" []
              ((replaceInlines "$100".toList "$200".toList true "A" "D"
                [Inline.run false false [TextLeaf.t "Revenue: ".toList false]]
                1).2.1 + 2)).1,
        (replaceInlines "$100".toList "$200".toList true "A" "D" []
            ((replaceInlines "$100".toList "$200".toList true "A" "D"
              [Inline.run false false [TextLeaf.t "Revenue: ".toList false]]
              1).2.1 + 2)).2.1,
        (replaceInlines "$100".toList "$200".toList true "A" "D"
            [Inline.run false false [TextLeaf.t "Revenue: ".toList false]] 1).2.2
          + (1 + (replaceInlines "$100".toList "$200".toList true "A" "D" []
              ((replaceInlines "$100".toList "$200".toList true "A" "D"
                [Inline.run false false [TextLeaf.t "Revenue: ".toList false]]
                1).2.1 + 2)).2.2)) :=
  ⟨by decide,
   (c1_tracked_splice false false [TextLeaf.t "$100".toList false]
      "$100".toList "$200".toList "A" "D"
      [Inline.run false false [TextLeaf.t "Revenue: ".toList false]] [] 1
      (by decide)).1⟩

/-- C7 counterexample: anchor absent and trackChanges requested — the
call returns `false` but the settings part has been written (created
with the tracking flag), so the on-disk state did change. -/
theorem c7_counterexample :
    (insert_text_after exStateNoAnchor "xyz".toList "new".toList true "A" "D").1
      = false
    ∧ (insert_text_after exStateNoAnchor "xyz".toList "new".toList true "A" "D").2.settings
      ≠ exStateNoAnchor.settings := by
  refine ⟨by decide, by decide⟩

/-- C7 (amended): when no run's text contains the anchor, `insertAfter`
returns `false` and the document part is not persisted (the tree is
unchanged); however, when trackChanges was requested the settings part
has already been written with the tracking flag enabled before the
scan. -/
theorem c7_insert_no_match (st : DocState) (anchor newText : Str) (tc : Bool)
    (author date : String)
    (h : ∀ t ∈ docRunTexts st.doc, strContains t anchor = false) :
    insert_text_after st anchor newText tc author date
      = (false, DocState.mk st.doc
          (if tc then some (enableTrackChanges st.settings) else st.settings)) := by
  have hnone : insertParas anchor newText tc author date
      (if tc then get_next_change_id st.doc else 0) st.doc.paras = none := by
    apply insertParas_none
    intro p hp t ht
    apply h
    simp only [docRunTexts, List.mem_flatten]
    exact ⟨inlineListRunTexts p, List.mem_map_of_mem _ hp, ht⟩
  unfold insert_text_after
  simp only [hnone]

/-- C7 witness: concrete document without the anchor, tracked mode. -/
theorem c7_witness :
    (∀ t ∈ docRunTexts exStateNoAnchor.doc, strContains t "xyz".toList = false)
    ∧ insert_text_after exStateNoAnchor "xyz".toList "new".toList true "A" "D"
      = (false, DocState.mk exStateNoAnchor.doc
          (if true then some (enableTrackChanges exStateNoAnchor.settings)
            else exStateNoAnchor.settings)) :=
  ⟨by decide,
   c7_insert_no_match exStateNoAnchor "xyz".toList "new".toList true "A" "D"
     (by decide)⟩

/-- C9: starting from a tree whose numeric ids are unique, a single
tracked replace yields a tree whose id multiset is the old ids plus the
contiguous increasing block of `2·count` ids starting at the allocated
id; all ids remain unique, every pre-existing id lies strictly below
the allocated id, and every id of the result is either an old id or
lies in the new block. -/
theorem c9_tracked_id_uniqueness (st : DocState) (find repl : Str)
    (author date : String) (hnd : (docNumIds st.doc).Nodup) :
    (docNumIds (replace_text st find repl true author date).2.doc).Perm
        (docNumIds st.doc
          ++ idBlock (get_next_change_id st.doc)
              (2 * (replace_text st find repl true author date).1))
    ∧ (docNumIds (replace_text st find repl true author date).2.doc).Nodup
    ∧ (∀ y ∈ docNumIds st.doc, y < get_next_change_id st.doc)
    ∧ (∀ x ∈ docNumIds (replace_text st find repl true author date).2.doc,
        x ∈ docNumIds st.doc
          ∨ (get_next_change_id st.doc ≤ x
              ∧ x < get_next_change_id st.doc
                  + 2 * ((replace_text st find repl true author date).1 : Int))) := by
  have hdoc : (replace_text st find repl true author date).2.doc
      = Document.mk (replaceParas find repl true author date st.doc.paras
          (get_next_change_id st.doc)).1 st.doc.extraIds := rfl
  have hcount : (replace_text st find repl true author date).1
      = (replaceParas find repl true author date st.doc.paras
          (get_next_change_id st.doc)).2.2 := rfl
  have hp := replaceParas_cid_ids find repl author date st.doc.paras
    (get_next_change_id st.doc)
  have hperm : (docNumIds (replace_text st find repl true author date).2.doc).Perm
      (docNumIds st.doc
        ++ idBlock (get_next_change_id st.doc)
            (2 * (replace_text st find repl true author date).1)) := by
    rw [hdoc, hcount]
    simp only [docNumIds, docIds, numericIds_append]
    rw [List.append_assoc]
    exact List.Perm.append_left _ hp.2
  have hlt := docNumIds_lt_next st.doc
  refine ⟨hperm, ?_, hlt, ?_⟩
  · apply hperm.symm.nodup
    rw [List.nodup_append]
    refine ⟨hnd, idBlock_nodup _ _, ?_⟩
    intro a ha hb
    have h1 := hlt a ha
    have h2 := (mem_idBlock _ _ a).mp hb
    omega
  · intro x hx
    have := hperm.mem_iff.mp hx
    rcases List.mem_append.mp this with hold | hnew
    · exact Or.inl hold
    · right
      have h2 := (mem_idBlock _ _ x).mp hnew
      constructor
      · exact h2.1
      · have := h2.2
        push_cast at this ⊢
        omega

/-- C9 witness: a document with an existing insertion record (id 4) and
a matching run; after a tracked replace the ids are still unique. -/
theorem c9_witness :
    (docNumIds exStateTracked.doc).Nodup
    ∧ (docNumIds (replace_text exStateTracked "b".toList "X".toList true
        "A" "D").2.doc).Nodup :=
  ⟨by decide,
   (c9_tracked_id_uniqueness exStateTracked "b".toList "X".toList "A" "D"
     (by decide)).2.1⟩

/-- C6: when the first run (in document order) whose text contains the
anchor sits in some paragraph — no earlier paragraph and no earlier run
of that paragraph matching — `insertAfter` returns `true` and replaces
exactly that run, at its original position, by a run for
`before ++ anchor`, then an insertion record (tracked) or plain run
(untracked) for the new text, then a run for the after-part only if it
is non-empty; everything else, including all later paragraphs and
siblings, is untouched: at most one insertion is performed. -/
theorem c6_insert_after (st : DocState) (anchor newText : Str) (tc : Bool)
    (author date : String) (b i : Bool) (leaves : List TextLeaf)
    (ps1 ps2 : List Paragraph) (pre post : List Inline)
    (hdoc : st.doc.paras = ps1 ++ (pre ++ Inline.run b i leaves :: post) :: ps2)
    (hps1 : insertParas anchor newText tc author date
      (if tc then get_next_change_id st.doc else 0) ps1 = none)
    (hpre : insertInlines anchor newText tc author date
      (if tc then get_next_change_id st.doc else 0) pre = none)
    (hm : strContains (runWT leaves) anchor = true) :
    insert_text_after st anchor newText tc author date
      = (true, DocState.mk
          (Document.mk (ps1 ++ (pre
              ++ [create_run ((pyPartition (runWT leaves) anchor).1 ++ anchor)
                    false false]
              ++ [if tc then create_tracked_insertion newText author
                    (if tc then get_next_change_id st.doc else 0) date false false
                  else create_run newText false false]
              ++ (if (pyPartition (runWT leaves) anchor).2.2 = [] then []
                  else [create_run (pyPartition (runWT leaves) anchor).2.2
                    false false])
              ++ post) :: ps2)
            st.doc.extraIds)
          (if tc then some (enableTrackChanges st.settings) else st.settings)) := by
  have hrun : insertInline anchor newText tc author date
      (if tc then get_next_change_id st.doc else 0) (Inline.run b i leaves)
      = some ([create_run ((pyPartition (runWT leaves) anchor).1 ++ anchor)
              false false]
          ++ [if tc then create_tracked_insertion newText author
                (if tc then get_next_change_id st.doc else 0) date false false
              else create_run newText false false]
          ++ (if (pyPartition (runWT leaves) anchor).2.2 = [] then []
              else [create_run (pyPartition (runWT leaves) anchor).2.2
                false false])) := by
    simp [insertInline, hm]
  have hinl : insertInlines anchor newText tc author date
      (if tc then get_next_change_id st.doc else 0)
      (pre ++ Inline.run b i leaves :: post)
      = some (pre
          ++ ([create_run ((pyPartition (runWT leaves) anchor).1 ++ anchor)
                false false]
            ++ [if tc then create_tracked_insertion newText author
                  (if tc then get_next_change_id st.doc else 0) date false false
                else create_run newText false false]
            ++ (if (pyPartition (runWT leaves) anchor).2.2 = [] then []
                else [create_run (pyPartition (runWT leaves) anchor).2.2
                  false false]))
          ++ post) := by
    rw [insertInlines_append_of_none anchor newText tc author date _ pre _ hpre,
      insertInlines_cons_some anchor newText tc author date _ _ post _ hrun]
    simp [List.append_assoc]
  have hguard : strContains (paraText (pre ++ Inline.run b i leaves :: post))
      anchor = true := by
    have hx : inlineListText (pre ++ Inline.run b i leaves :: post)
        = inlineListText pre ++ (runWT leaves ++ inlineListText post) := by
      rw [inlineListText_append]
      simp [inlineListText, inlineText]
    have hmid := contains_of_middle (inlineListText pre) (inlineListText post) hm
    simp only [paraText, hx]
    simpa [List.append_assoc] using hmid
  have hpara : insertPara anchor newText tc author date
      (if tc then get_next_change_id st.doc else 0)
      (pre ++ Inline.run b i leaves :: post)
      = some (pre
          ++ ([create_run ((pyPartition (runWT leaves) anchor).1 ++ anchor)
                false false]
            ++ [if tc then create_tracked_insertion newText author
                  (if tc then get_next_change_id st.doc else 0) date false false
                else create_run newText false false]
            ++ (if (pyPartition (runWT leaves) anchor).2.2 = [] then []
                else [create_run (pyPartition (runWT leaves) anchor).2.2
                  false false]))
          ++ post) := by
    unfold insertPara
    rw [hguard]
    simp only [if_true]
    exact hinl
  have hparas : insertParas anchor newText tc author date
      (if tc then get_next_change_id st.doc else 0) st.doc.paras
      = some (ps1 ++ (pre
          ++ ([create_run ((pyPartition (runWT leaves) anchor).1 ++ anchor)
                false false]
            ++ [if tc then create_tracked_insertion newText author
                  (if tc then get_next_change_id st.doc else 0) date false false
                else create_run newText false false]
            ++ (if (pyPartition (runWT leaves) anchor).2.2 = [] then []
                else [create_run (pyPartition (runWT leaves) anchor).2.2
                  false false]))
          ++ post) :: ps2) := by
    rw [hdoc,
      insertParas_append_of_none anchor newText tc author date _ ps1 _ hps1,
      insertParas_cons_some anchor newText tc author date _ _ _ ps2 hpara]
    simp
  unfold insert_text_after
  simp only [hparas]
  simp [List.append_assoc]

/-- C6 witness: the spec's example paragraph `["Revenue: ", "$100"]`
with anchor `"$100"` in tracked mode: the second run is split and the
insertion record placed right after the anchor text. -/
theorem c6_witness :
    strContains (runWT [TextLeaf.t "$100".toList false]) "$100".toList = true
    ∧ insert_text_after exStateRevenue "$100".toList " (updated)".toList true "A" "D"
      = (true, DocState.mk
          (Document.mk
            [[Inline.run false false [TextLeaf.t "Revenue: ".toList false],
              Inline.run false false [TextLeaf.t "$100".toList false],
              Inline.wrap true (IdVal.numeric 1) "A" "D"
                [Inline.run false false [TextLeaf.t " (updated)".toList true]]]]
            [])
          (some { trackRevisions := true })) :=
  ⟨by decide,
   (c6_insert_after exStateRevenue "$100".toList " (updated)".toList true "A" "D"
      false false [TextLeaf.t "$100".toList false] [] []
      [Inline.run false false [TextLeaf.t "Revenue: ".toList false]] []
      rfl rfl rfl (by decide)).trans (by rfl)⟩

end DocxEdit
